import Mathlib

/-!
# Verification of the CPU-target dispatch core (src/processor.cpp)

The C++ code is shallowly embedded.  A FeatureList<n> becomes a list of n
machine words, each a Nat holding a uint32 value; pointer walks over the
sysimg blobs become explicit list manipulation; fatal exits (jl_error and
failed asserts) become Except / Option results; an array access past the end
of its backing storage (undefined behaviour in C++) is modelled as none.
-/

set_option autoImplicit false

namespace Processor

/-- The all-ones 32-bit word, 2^32 - 1. -/
def mask32 : Nat := 4294967295

/-- uint32 bitwise complement: xor with the all-ones word.  This is exact for
word values below 2^32, which is all the C++ code can produce. -/
def not32 (w : Nat) : Nat := w ^^^ mask32

/-- Source test_nbit (processor.cpp lines 79-86): the index is first forced
through static_cast<uint32_t>, then split into word index bitidx/32 and bit
position bitidx%32, and the selected word is tested against 1 << bit.
Reading a word past the end of the array is modelled as none. -/
def test_nbit (bits : List Nat) (idx : Nat) : Option Bool :=
  match bits[(idx % 4294967296) / 32]? with
  | none => none
  | some w => some (w &&& (1 <<< ((idx % 4294967296) % 32)) != 0)

/-- Source set_bit (processor.cpp lines 104-116): or the selected word with
1 << bit when val is true, and it with the complement otherwise. -/
def set_bit (bits : List Nat) (idx : Nat) (val : Bool) : Option (List Nat) :=
  match bits[(idx % 4294967296) / 32]? with
  | none => none
  | some w =>
    some (bits.set ((idx % 4294967296) / 32)
      (if val then w ||| (1 <<< ((idx % 4294967296) % 32))
       else w &&& not32 (1 <<< ((idx % 4294967296) % 32))))

/-- Source unset_bits (processor.cpp lines 94-102), at the single-index
instantiation used by disable_depends: clear the selected bit. -/
def unset_bits (bits : List Nat) (idx : Nat) : Option (List Nat) :=
  match bits[(idx % 4294967296) / 32]? with
  | none => none
  | some w =>
    some (bits.set ((idx % 4294967296) / 32) (w &&& not32 (1 <<< ((idx % 4294967296) % 32))))

/-- Source operator& on FeatureList (processor.cpp lines 221-232):
elementwise and of the word arrays. -/
def fl_and (a b : List Nat) : List Nat := List.zipWith (fun x y => x &&& y) a b

/-- Source operator~ on FeatureList (processor.cpp lines 234-245):
elementwise uint32 complement. -/
def fl_not (a : List Nat) : List Nat := a.map not32

/-- Source FeatureList::empty (processor.cpp lines 147-155): true iff every
word is zero. -/
def fl_empty (a : List Nat) : Bool := a.all (fun w => w == 0)

/-- Source features_le (processor.cpp lines 158-167): false iff some word of
a has a bit that the corresponding word of b lacks. -/
def features_le (a b : List Nat) : Bool :=
  (List.zip a b).all (fun p => p.1 &&& not32 p.2 == 0)

theorem mask32_eq : mask32 = 2 ^ 32 - 1 := rfl

theorem testBit_mask32 (k : Nat) : mask32.testBit k = decide (k < 32) := by
  rw [mask32_eq, Nat.testBit_two_pow_sub_one]

theorem testBit_lt_32 {a k : Nat} (ha : a < 2 ^ 32) (h : a.testBit k = true) : k < 32 := by
  by_contra hk
  have : a < 2 ^ k := lt_of_lt_of_le ha (Nat.pow_le_pow_right (by norm_num) (Nat.le_of_not_lt hk))
  simp [Nat.testBit_lt_two_pow this] at h

/-- One word of the subset test, bit by bit: a word-level a & ~b == 0 says
exactly that every bit of a is a bit of b. -/
theorem land_not32_eq_zero_iff {a b : Nat} (ha : a < 2 ^ 32) :
    a &&& not32 b = 0 ↔ ∀ k, a.testBit k = true → b.testBit k = true := by
  constructor
  · intro h k hk
    by_contra hbk
    have hk32 : k < 32 := testBit_lt_32 ha hk
    have : (a &&& not32 b).testBit k = true := by
      rw [Nat.testBit_land, not32, Nat.testBit_xor, testBit_mask32]
      simp [hk, Bool.eq_false_iff.mpr hbk, hk32]
    rw [h, Nat.zero_testBit] at this
    exact Bool.false_ne_true this
  · intro h
    apply Nat.eq_of_testBit_eq
    intro k
    rw [Nat.testBit_land, not32, Nat.testBit_xor, testBit_mask32, Nat.zero_testBit]
    by_cases hak : a.testBit k = true
    · have hk32 : k < 32 := testBit_lt_32 ha hak
      simp [hak, h k hak, hk32]
    · simp [Bool.eq_false_iff.mpr hak]

theorem land_two_pow_ne_zero_iff {a k : Nat} :
    a &&& 2 ^ k ≠ 0 ↔ a.testBit k = true := by
  constructor
  · intro h
    by_contra hk
    apply h
    apply Nat.eq_of_testBit_eq
    intro m
    rw [Nat.testBit_land, Nat.zero_testBit]
    by_cases hm : k = m
    · subst hm
      simp [Bool.eq_false_iff.mpr hk]
    · simp [Nat.testBit_two_pow_of_ne hm]
  · intro h h0
    have : (a &&& 2 ^ k).testBit k = true := by
      simp [Nat.testBit_land, h]
    rw [h0, Nat.zero_testBit] at this
    exact Bool.false_ne_true this

/-- Word-level characterization of the source subset test. -/
theorem features_le_iff_words {a b : List Nat} (hlen : a.length = b.length) :
    features_le a b = true ↔
      ∀ i, (h : i < a.length) → a[i] &&& not32 b[i] = 0 := by
  unfold features_le
  rw [List.all_eq_true]
  constructor
  · intro h i hi
    have hz : i < (a.zip b).length := by
      rw [List.length_zip]
      omega
    have := h (a.zip b)[i] (List.getElem_mem hz)
    rw [List.getElem_zip] at this
    simpa using this
  · intro h p hp
    rcases List.mem_iff_getElem.mp hp with ⟨i, hi, hpi⟩
    have hia : i < a.length := by
      rw [List.length_zip] at hi
      omega
    rw [List.getElem_zip] at hpi
    subst hpi
    simpa using h i hia

/-- Word-level characterization of emptiness of a & ~b. -/
theorem fl_empty_and_not_iff_words {a b : List Nat} (hlen : a.length = b.length) :
    fl_empty (fl_and a (fl_not b)) = true ↔
      ∀ i, (h : i < a.length) → a[i] &&& not32 b[i] = 0 := by
  unfold fl_empty fl_and fl_not
  rw [List.all_eq_true]
  constructor
  · intro h i hi
    have hz : i < (List.zipWith (fun x y => x &&& y) a (b.map not32)).length := by
      rw [List.length_zipWith, List.length_map]
      omega
    have := h _ (List.getElem_mem hz)
    rw [List.getElem_zipWith] at this
    rw [List.getElem_map] at this
    simpa using this
  · intro h w hw
    rcases List.mem_iff_getElem.mp hw with ⟨i, hi, hwi⟩
    have hia : i < a.length := by
      rw [List.length_zipWith, List.length_map] at hi
      omega
    rw [List.getElem_zipWith] at hwi
    rw [List.getElem_map] at hwi
    subst hwi
    simpa using h i hia

/-- C2: for every pair of FeatureLists a and b with the same word count,
features_le(a, b) returns true iff (a & ~b) is the empty FeatureList, and
equivalently iff every feature bit set in a (read through test_nbit, which is
how the source addresses individual features) is also set in b.  The words
are uint32 values and the bit indices fit in a uint32, which is what the
hypotheses below record. -/
theorem C2_features_le_subset (a b : List Nat)
    (hlen : a.length = b.length)
    (ha : ∀ w ∈ a, w < 2 ^ 32) (_hb : ∀ w ∈ b, w < 2 ^ 32)
    (hn : 32 * a.length ≤ 4294967296) :
    (features_le a b = true ↔ fl_empty (fl_and a (fl_not b)) = true)
    ∧ (features_le a b = true ↔
        ∀ j, j < 32 * a.length →
          (test_nbit a j = some true → test_nbit b j = some true)) := by
  constructor
  · rw [features_le_iff_words hlen, fl_empty_and_not_iff_words hlen]
  · rw [features_le_iff_words hlen]
    constructor
    · intro h j hj hta
      have hj32 : j < 4294967296 := lt_of_lt_of_le hj hn
      have hjm : j % 4294967296 = j := Nat.mod_eq_of_lt hj32
      have hia : j / 32 < a.length := by omega
      have hib : j / 32 < b.length := by omega
      unfold test_nbit at hta ⊢
      rw [hjm] at hta ⊢
      rw [List.getElem?_eq_getElem hia] at hta
      rw [List.getElem?_eq_getElem hib]
      have hta' : a[j / 32] &&& 1 <<< (j % 32) ≠ 0 := by
        by_contra hc
        simp [hc] at hta
      rw [Nat.shiftLeft_eq, one_mul] at hta'
      have hbit : (a[j / 32]).testBit (j % 32) = true :=
        land_two_pow_ne_zero_iff.mp hta'
      have hword := h (j / 32) hia
      have hA : a[j / 32] < 2 ^ 32 := ha _ (List.getElem_mem hia)
      have hbbit : (b[j / 32]).testBit (j % 32) = true :=
        (land_not32_eq_zero_iff hA).mp hword _ hbit
      have : b[j / 32] &&& 1 <<< (j % 32) ≠ 0 := by
        rw [Nat.shiftLeft_eq, one_mul]
        exact land_two_pow_ne_zero_iff.mpr hbbit
      simp [this]
    · intro h i hi
      have hA : a[i] < 2 ^ 32 := ha _ (List.getElem_mem hi)
      rw [land_not32_eq_zero_iff hA]
      intro k hk
      have hk32 : k < 32 := testBit_lt_32 hA hk
      have hj : 32 * i + k < 32 * a.length := by omega
      have hj32 : 32 * i + k < 4294967296 := lt_of_lt_of_le hj hn
      have hdiv : (32 * i + k) / 32 = i := by omega
      have hmod : (32 * i + k) % 32 = k := by omega
      have hib : i < b.length := hlen ▸ hi
      have hta : test_nbit a (32 * i + k) = some true := by
        unfold test_nbit
        rw [Nat.mod_eq_of_lt hj32, hdiv, hmod, List.getElem?_eq_getElem hi]
        have : a[i] &&& 1 <<< k ≠ 0 := by
          rw [Nat.shiftLeft_eq, one_mul]
          exact land_two_pow_ne_zero_iff.mpr hk
        simp [this]
      have htb := h (32 * i + k) hj hta
      unfold test_nbit at htb
      rw [Nat.mod_eq_of_lt hj32, hdiv, hmod, List.getElem?_eq_getElem hib] at htb
      have : b[i] &&& 1 <<< k ≠ 0 := by
        by_contra hc
        simp [hc] at htb
      rw [Nat.shiftLeft_eq, one_mul] at this
      exact land_two_pow_ne_zero_iff.mp this

/-- Witness for C2 at a concrete input: the subset test on [5] and [7]
follows from emptiness of the masked intersection. -/
theorem C2_features_le_subset_witness : features_le [5] [7] = true :=
  (C2_features_le_subset [5] [7] (by decide)
    (by intro w hw; simp at hw; omega)
    (by intro w hw; simp at hw; omega)
    (by norm_num)).1.mpr (by decide)

/-- Source FeatureDep (processor.cpp lines 308-311): a directed edge from a
feature to one of its dependencies. -/
structure FeatureDep where
  feature : Nat
  dep : Nat
deriving DecidableEq

/-- One edge of an enable_depends pass (the loop body at processor.cpp lines
320-324): when the triggering feature is present and its dependency absent,
set the dependency bit and record a change.  The short-circuit of the C++
condition is kept: the dependency bit is only read when the feature bit is
set. -/
def ed_step : Option (List Nat × Bool) → FeatureDep → Option (List Nat × Bool)
  | none, _ => none
  | some (f, ch), d =>
    match test_nbit f d.feature with
    | none => none
    | some false => some (f, ch)
    | some true =>
      match test_nbit f d.dep with
      | none => none
      | some true => some (f, ch)
      | some false =>
        match set_bit f d.dep true with
        | none => none
        | some f2 => some (f2, true)

/-- One full pass of enable_depends: the C++ walks the edge array from the
last entry down to the first. -/
def ed_pass (f : List Nat) (deps : List FeatureDep) : Option (List Nat × Bool) :=
  deps.reverse.foldl ed_step (some (f, false))

/-- The while (changed) loop of enable_depends, with explicit fuel counting
passes. -/
def ed_iter : Nat → List Nat → List FeatureDep → Option (List Nat)
  | 0, _, _ => none
  | fuel + 1, f, deps =>
    match ed_pass f deps with
    | none => none
    | some (f2, ch) => if ch then ed_iter fuel f2 deps else some f2

/-- Source enable_depends (processor.cpp lines 313-327).  Every pass that
reports a change sets at least one previously clear bit among the 32 * n
available ones, so 32 * n + 1 passes always reach the fixpoint that the C++
while loop computes. -/
def enable_depends (features : List Nat) (deps : List FeatureDep) : Option (List Nat) :=
  ed_iter (32 * features.length + 1) features deps

/-- One edge of a disable_depends pass (processor.cpp lines 336-340): when
the triggering feature is present and its dependency absent, clear the
triggering feature itself (the source calls unset_bits on dep.feature, not
on dep.dep). -/
def dd_step : Option (List Nat × Bool) → FeatureDep → Option (List Nat × Bool)
  | none, _ => none
  | some (f, ch), d =>
    match test_nbit f d.feature with
    | none => none
    | some false => some (f, ch)
    | some true =>
      match test_nbit f d.dep with
      | none => none
      | some true => some (f, ch)
      | some false =>
        match unset_bits f d.feature with
        | none => none
        | some f2 => some (f2, true)

/-- One full pass of disable_depends, edges walked last to first. -/
def dd_pass (f : List Nat) (deps : List FeatureDep) : Option (List Nat × Bool) :=
  deps.reverse.foldl dd_step (some (f, false))

/-- The while (changed) loop of disable_depends, with explicit fuel. -/
def dd_iter : Nat → List Nat → List FeatureDep → Option (List Nat)
  | 0, _, _ => none
  | fuel + 1, f, deps =>
    match dd_pass f deps with
    | none => none
    | some (f2, ch) => if ch then dd_iter fuel f2 deps else some f2

/-- Source disable_depends (processor.cpp lines 329-343), with the same fuel
argument as enable_depends: a changing pass clears at least one set bit. -/
def disable_depends (features : List Nat) (deps : List FeatureDep) : Option (List Nat) :=
  dd_iter (32 * features.length + 1) features deps

/-- Wordwise bit containment between two word lists of the same length:
every word of a is absorbed by the matching word of b. -/
def flSub (a b : List Nat) : Prop :=
  a.length = b.length ∧
    ∀ (i wa wb : Nat), a[i]? = some wa → b[i]? = some wb → wa &&& wb = wa

theorem land_self (w : Nat) : w &&& w = w := by
  apply Nat.eq_of_testBit_eq
  intro k
  rw [Nat.testBit_land]
  cases w.testBit k <;> simp

theorem flSub_refl (a : List Nat) : flSub a a := by
  refine ⟨rfl, ?_⟩
  intro i wa wb h1 h2
  rw [h1] at h2
  cases h2
  exact land_self wa

theorem flSub_trans {a b c : List Nat} (h1 : flSub a b) (h2 : flSub b c) : flSub a c := by
  obtain ⟨l1, w1⟩ := h1
  obtain ⟨l2, w2⟩ := h2
  refine ⟨l1.trans l2, ?_⟩
  intro i wa wc ha hc
  have hib : i < b.length := by
    have : i < a.length := (List.getElem?_eq_some.mp ha).1
    omega
  have hb : b[i]? = some b[i] := List.getElem?_eq_getElem hib
  have e1 := w1 i wa _ ha hb
  have e2 := w2 i _ wc hb hc
  apply Nat.eq_of_testBit_eq
  intro k
  have t1 := congrArg (fun x => x.testBit k) e1
  have t2 := congrArg (fun x => x.testBit k) e2
  simp only [Nat.testBit_land] at t1 t2 ⊢
  cases hta : wa.testBit k <;> cases htb : (b[i]).testBit k <;>
    cases htc : wc.testBit k <;> simp_all

theorem land_lor_self (w m : Nat) : w &&& (w ||| m) = w := by
  apply Nat.eq_of_testBit_eq
  intro k
  rw [Nat.testBit_land, Nat.testBit_lor]
  cases w.testBit k <;> simp

theorem land_land_self (w m : Nat) : (w &&& m) &&& w = w &&& m := by
  apply Nat.eq_of_testBit_eq
  intro k
  simp only [Nat.testBit_land]
  cases w.testBit k <;> simp

/-- Setting one word to a value that absorbs the old word only adds bits. -/
theorem flSub_set_absorb {f : List Nat} {u w wnew : Nat}
    (hg : f[u]? = some w) (habs : w &&& wnew = w) : flSub f (f.set u wnew) := by
  have hu : u < f.length := (List.getElem?_eq_some.mp hg).1
  refine ⟨(List.length_set f _ _).symm, ?_⟩
  intro i wa wb ha hb
  rw [List.getElem?_set] at hb
  by_cases hui : u = i
  · subst hui
    rw [if_pos rfl, if_pos hu] at hb
    have hwa : wa = w := by
      rw [hg] at ha
      cases ha
      rfl
    have hwb : wb = wnew := by
      cases hb
      rfl
    rw [hwa, hwb]
    exact habs
  · rw [if_neg hui] at hb
    rw [ha] at hb
    cases hb
    exact land_self wa

/-- Setting one word to a value absorbed by the old word only removes bits. -/
theorem flSub_set_shrink {f : List Nat} {u w wnew : Nat}
    (hg : f[u]? = some w) (habs : wnew &&& w = wnew) : flSub (f.set u wnew) f := by
  have hu : u < f.length := (List.getElem?_eq_some.mp hg).1
  refine ⟨List.length_set f _ _, ?_⟩
  intro i wa wb ha hb
  rw [List.getElem?_set] at ha
  by_cases hui : u = i
  · subst hui
    rw [if_pos rfl, if_pos hu] at ha
    have hwb : wb = w := by
      rw [hg] at hb
      cases hb
      rfl
    have hwa : wa = wnew := by
      cases ha
      rfl
    rw [hwa, hwb]
    exact habs
  · rw [if_neg hui] at ha
    rw [hb] at ha
    cases ha
    exact land_self wa

/-- set_bit with val = true only adds bits. -/
theorem set_bit_true_flSub {f f2 : List Nat} {idx : Nat}
    (h : set_bit f idx true = some f2) : flSub f f2 := by
  unfold set_bit at h
  cases hg : f[(idx % 4294967296) / 32]? with
  | none => rw [hg] at h; cases h
  | some w =>
    rw [hg] at h
    simp only [if_pos, Option.some.injEq] at h
    rw [← h]
    exact flSub_set_absorb hg (land_lor_self w _)

/-- unset_bits only removes bits. -/
theorem unset_bits_flSub {f f2 : List Nat} {idx : Nat}
    (h : unset_bits f idx = some f2) : flSub f2 f := by
  unfold unset_bits at h
  cases hg : f[(idx % 4294967296) / 32]? with
  | none => rw [hg] at h; cases h
  | some w =>
    rw [hg] at h
    simp only [Option.some.injEq] at h
    rw [← h]
    exact flSub_set_shrink hg (land_land_self w _)

theorem ed_step_flSub {f f2 : List Nat} {ch ch2 : Bool} {d : FeatureDep}
    (h : ed_step (some (f, ch)) d = some (f2, ch2)) : flSub f f2 := by
  simp only [ed_step] at h
  cases h1 : test_nbit f d.feature with
  | none => rw [h1] at h; cases h
  | some b1 =>
    rw [h1] at h
    cases b1 with
    | false =>
      simp only [Option.some.injEq, Prod.mk.injEq] at h
      exact h.1 ▸ flSub_refl f
    | true =>
      cases h2 : test_nbit f d.dep with
      | none => rw [h2] at h; cases h
      | some b2 =>
        rw [h2] at h
        cases b2 with
        | true =>
          simp only [Option.some.injEq, Prod.mk.injEq] at h
          exact h.1 ▸ flSub_refl f
        | false =>
          cases h3 : set_bit f d.dep true with
          | none => rw [h3] at h; cases h
          | some f3 =>
            rw [h3] at h
            simp only [Option.some.injEq, Prod.mk.injEq] at h
            exact h.1 ▸ set_bit_true_flSub h3

theorem dd_step_flSub {f f2 : List Nat} {ch ch2 : Bool} {d : FeatureDep}
    (h : dd_step (some (f, ch)) d = some (f2, ch2)) : flSub f2 f := by
  simp only [dd_step] at h
  cases h1 : test_nbit f d.feature with
  | none => rw [h1] at h; cases h
  | some b1 =>
    rw [h1] at h
    cases b1 with
    | false =>
      simp only [Option.some.injEq, Prod.mk.injEq] at h
      exact h.1 ▸ flSub_refl f
    | true =>
      cases h2 : test_nbit f d.dep with
      | none => rw [h2] at h; cases h
      | some b2 =>
        rw [h2] at h
        cases b2 with
        | true =>
          simp only [Option.some.injEq, Prod.mk.injEq] at h
          exact h.1 ▸ flSub_refl f
        | false =>
          cases h3 : unset_bits f d.feature with
          | none => rw [h3] at h; cases h
          | some f3 =>
            rw [h3] at h
            simp only [Option.some.injEq, Prod.mk.injEq] at h
            exact h.1 ▸ unset_bits_flSub h3

theorem ed_foldl_none (l : List FeatureDep) : l.foldl ed_step none = none := by
  induction l with
  | nil => rfl
  | cons d l ih => exact ih

theorem dd_foldl_none (l : List FeatureDep) : l.foldl dd_step none = none := by
  induction l with
  | nil => rfl
  | cons d l ih => exact ih

theorem ed_foldl_flSub (l : List FeatureDep) :
    ∀ f ch f2 ch2, l.foldl ed_step (some (f, ch)) = some (f2, ch2) → flSub f f2 := by
  induction l with
  | nil =>
    intro f ch f2 ch2 h
    simp only [List.foldl_nil, Option.some.injEq, Prod.mk.injEq] at h
    exact h.1 ▸ flSub_refl f
  | cons d l ih =>
    intro f ch f2 ch2 h
    rw [List.foldl_cons] at h
    cases hr : ed_step (some (f, ch)) d with
    | none => rw [hr, ed_foldl_none] at h; cases h
    | some p =>
      obtain ⟨f1, ch1⟩ := p
      rw [hr] at h
      exact flSub_trans (ed_step_flSub hr) (ih f1 ch1 f2 ch2 h)

theorem dd_foldl_flSub (l : List FeatureDep) :
    ∀ f ch f2 ch2, l.foldl dd_step (some (f, ch)) = some (f2, ch2) → flSub f2 f := by
  induction l with
  | nil =>
    intro f ch f2 ch2 h
    simp only [List.foldl_nil, Option.some.injEq, Prod.mk.injEq] at h
    exact h.1 ▸ flSub_refl f
  | cons d l ih =>
    intro f ch f2 ch2 h
    rw [List.foldl_cons] at h
    cases hr : dd_step (some (f, ch)) d with
    | none => rw [hr, dd_foldl_none] at h; cases h
    | some p =>
      obtain ⟨f1, ch1⟩ := p
      rw [hr] at h
      exact flSub_trans (ih f1 ch1 f2 ch2 h) (dd_step_flSub hr)

theorem ed_iter_flSub : ∀ fuel f deps t, ed_iter fuel f deps = some t → flSub f t := by
  intro fuel
  induction fuel with
  | zero => intro f deps t h; cases h
  | succ n ih =>
    intro f deps t h
    unfold ed_iter at h
    cases hp : ed_pass f deps with
    | none => rw [hp] at h; cases h
    | some p =>
      obtain ⟨f1, ch1⟩ := p
      rw [hp] at h
      have hsub : flSub f f1 := ed_foldl_flSub _ f false f1 ch1 hp
      cases ch1 with
      | true =>
        simp only [if_pos rfl] at h
        exact flSub_trans hsub (ih f1 deps t h)
      | false =>
        simp only [Bool.false_eq_true, if_false, Option.some.injEq] at h
        exact h ▸ hsub

theorem dd_iter_flSub : ∀ fuel f deps t, dd_iter fuel f deps = some t → flSub t f := by
  intro fuel
  induction fuel with
  | zero => intro f deps t h; cases h
  | succ n ih =>
    intro f deps t h
    unfold dd_iter at h
    cases hp : dd_pass f deps with
    | none => rw [hp] at h; cases h
    | some p =>
      obtain ⟨f1, ch1⟩ := p
      rw [hp] at h
      have hsub : flSub f1 f := dd_foldl_flSub _ f false f1 ch1 hp
      cases ch1 with
      | true =>
        simp only [if_pos rfl] at h
        exact flSub_trans (ih f1 deps t h) hsub
      | false =>
        simp only [Bool.false_eq_true, if_false, Option.some.injEq] at h
        exact h ▸ hsub

/-- A wordwise containment whose small side has uint32 words is reported by
the source subset test. -/
theorem flSub_features_le {a b : List Nat} (h : flSub a b)
    (ha : ∀ w ∈ a, w < 2 ^ 32) : features_le a b = true := by
  obtain ⟨hlen, hw⟩ := h
  rw [features_le_iff_words hlen]
  intro i hi
  have hib : i < b.length := by omega
  have habs := hw i a[i] b[i] (List.getElem?_eq_getElem hi) (List.getElem?_eq_getElem hib)
  rw [land_not32_eq_zero_iff (ha _ (List.getElem_mem hi))]
  intro k hk
  have := congrArg (fun x => x.testBit k) habs
  simp only [Nat.testBit_land, hk, Bool.true_and] at this
  exact this

/-- C3: for every FeatureList and dependency-edge table on which the closures
complete, enable_depends only adds bits (its input is a subset of its output)
and disable_depends only removes bits (its output is a subset of its input),
subsets being taken by the source's own features_le test. -/
theorem C3_depends_monotone (s : List Nat) (deps : List FeatureDep)
    (h32 : ∀ w ∈ s, w < 2 ^ 32) :
    (∀ t, enable_depends s deps = some t → features_le s t = true)
    ∧ (∀ u, disable_depends s deps = some u → features_le u s = true) := by
  constructor
  · intro t ht
    exact flSub_features_le (ed_iter_flSub _ s deps t ht) h32
  · intro u hu
    have hsub : flSub u s := dd_iter_flSub _ s deps u hu
    apply flSub_features_le hsub
    intro w hw
    rcases List.mem_iff_getElem.mp hw with ⟨i, hi, hwi⟩
    have his : i < s.length := by
      have := hsub.1
      omega
    have habs := hsub.2 i w s[i] (hwi ▸ List.getElem?_eq_getElem hi)
      (List.getElem?_eq_getElem his)
    calc w = w &&& s[i] := habs.symm
    _ ≤ s[i] := Nat.and_le_right
    _ < 2 ^ 32 := h32 _ (List.getElem_mem his)

/-- Witness for C3 at a concrete input: the edge 0 -> 1 grows [1] to [3],
and the disable walk shrinks [1] to [0]. -/
theorem C3_depends_monotone_witness :
    features_le [1] [3] = true ∧ features_le [0] [1] = true :=
  ⟨(C3_depends_monotone [1] [⟨0, 1⟩] (by intro w hw; simp at hw; omega)).1
      [3] (by decide),
   (C3_depends_monotone [1] [⟨0, 1⟩] (by intro w hw; simp at hw; omega)).2
      [0] (by decide)⟩

/-- A step that reports no change leaves the set untouched and saw no prior
change. -/
theorem ed_step_false {f f1 : List Nat} {ch : Bool} {d : FeatureDep}
    (h : ed_step (some (f, ch)) d = some (f1, false)) : f1 = f ∧ ch = false := by
  simp only [ed_step] at h
  cases h1 : test_nbit f d.feature with
  | none => rw [h1] at h; cases h
  | some b1 =>
    rw [h1] at h
    cases b1 with
    | false =>
      simp only [Option.some.injEq, Prod.mk.injEq] at h
      exact ⟨h.1.symm, h.2⟩
    | true =>
      cases h2 : test_nbit f d.dep with
      | none => rw [h2] at h; cases h
      | some b2 =>
        rw [h2] at h
        cases b2 with
        | true =>
          simp only [Option.some.injEq, Prod.mk.injEq] at h
          exact ⟨h.1.symm, h.2⟩
        | false =>
          cases h3 : set_bit f d.dep true with
          | none => rw [h3] at h; cases h
          | some f3 =>
            rw [h3] at h
            simp only [Option.some.injEq, Prod.mk.injEq] at h
            cases h.2

theorem dd_step_false {f f1 : List Nat} {ch : Bool} {d : FeatureDep}
    (h : dd_step (some (f, ch)) d = some (f1, false)) : f1 = f ∧ ch = false := by
  simp only [dd_step] at h
  cases h1 : test_nbit f d.feature with
  | none => rw [h1] at h; cases h
  | some b1 =>
    rw [h1] at h
    cases b1 with
    | false =>
      simp only [Option.some.injEq, Prod.mk.injEq] at h
      exact ⟨h.1.symm, h.2⟩
    | true =>
      cases h2 : test_nbit f d.dep with
      | none => rw [h2] at h; cases h
      | some b2 =>
        rw [h2] at h
        cases b2 with
        | true =>
          simp only [Option.some.injEq, Prod.mk.injEq] at h
          exact ⟨h.1.symm, h.2⟩
        | false =>
          cases h3 : unset_bits f d.feature with
          | none => rw [h3] at h; cases h
          | some f3 =>
            rw [h3] at h
            simp only [Option.some.injEq, Prod.mk.injEq] at h
            cases h.2

theorem ed_foldl_false (l : List FeatureDep) :
    ∀ f ch f2, l.foldl ed_step (some (f, ch)) = some (f2, false) → f2 = f ∧ ch = false := by
  induction l with
  | nil =>
    intro f ch f2 h
    simp only [List.foldl_nil, Option.some.injEq, Prod.mk.injEq] at h
    exact ⟨h.1.symm, h.2⟩
  | cons d l ih =>
    intro f ch f2 h
    rw [List.foldl_cons] at h
    cases hr : ed_step (some (f, ch)) d with
    | none => rw [hr, ed_foldl_none] at h; cases h
    | some p =>
      obtain ⟨f1, ch1⟩ := p
      rw [hr] at h
      obtain ⟨e1, e2⟩ := ih f1 ch1 f2 h
      subst e1
      subst e2
      exact ed_step_false hr

theorem dd_foldl_false (l : List FeatureDep) :
    ∀ f ch f2, l.foldl dd_step (some (f, ch)) = some (f2, false) → f2 = f ∧ ch = false := by
  induction l with
  | nil =>
    intro f ch f2 h
    simp only [List.foldl_nil, Option.some.injEq, Prod.mk.injEq] at h
    exact ⟨h.1.symm, h.2⟩
  | cons d l ih =>
    intro f ch f2 h
    rw [List.foldl_cons] at h
    cases hr : dd_step (some (f, ch)) d with
    | none => rw [hr, dd_foldl_none] at h; cases h
    | some p =>
      obtain ⟨f1, ch1⟩ := p
      rw [hr] at h
      obtain ⟨e1, e2⟩ := ih f1 ch1 f2 h
      subst e1
      subst e2
      exact dd_step_false hr

/-- A completed enable_depends run sits at a fixpoint of its own pass. -/
theorem ed_iter_fixpoint :
    ∀ fuel f deps t, ed_iter fuel f deps = some t → ed_pass t deps = some (t, false) := by
  intro fuel
  induction fuel with
  | zero => intro f deps t h; cases h
  | succ n ih =>
    intro f deps t h
    unfold ed_iter at h
    cases hp : ed_pass f deps with
    | none => rw [hp] at h; cases h
    | some p =>
      obtain ⟨f1, ch1⟩ := p
      rw [hp] at h
      cases ch1 with
      | true =>
        simp only [if_pos rfl] at h
        exact ih f1 deps t h
      | false =>
        simp only [Bool.false_eq_true, if_false, Option.some.injEq] at h
        have hf1 : f1 = f := (ed_foldl_false _ f false f1 hp).1
        subst h
        rw [hf1] at hp ⊢
        exact hp

theorem dd_iter_fixpoint :
    ∀ fuel f deps t, dd_iter fuel f deps = some t → dd_pass t deps = some (t, false) := by
  intro fuel
  induction fuel with
  | zero => intro f deps t h; cases h
  | succ n ih =>
    intro f deps t h
    unfold dd_iter at h
    cases hp : dd_pass f deps with
    | none => rw [hp] at h; cases h
    | some p =>
      obtain ⟨f1, ch1⟩ := p
      rw [hp] at h
      cases ch1 with
      | true =>
        simp only [if_pos rfl] at h
        exact ih f1 deps t h
      | false =>
        simp only [Bool.false_eq_true, if_false, Option.some.injEq] at h
        have hf1 : f1 = f := (dd_foldl_false _ f false f1 hp).1
        subst h
        rw [hf1] at hp ⊢
        exact hp

/-- C4: on every FeatureList and dependency-edge table on which they
complete, enable_depends and disable_depends are idempotent: running them a
second time on their own output returns that output unchanged. -/
theorem C4_depends_idempotent (s : List Nat) (deps : List FeatureDep) :
    (∀ t, enable_depends s deps = some t → enable_depends t deps = some t)
    ∧ (∀ u, disable_depends s deps = some u → disable_depends u deps = some u) := by
  constructor
  · intro t ht
    have hfix := ed_iter_fixpoint _ s deps t ht
    unfold enable_depends
    unfold ed_iter
    rw [hfix]
    simp
  · intro u hu
    have hfix := dd_iter_fixpoint _ s deps u hu
    unfold disable_depends
    unfold dd_iter
    rw [hfix]
    simp

/-- Witness for C4 at a concrete input: the closures of [3] under the edge
1 -> 6 are the fixpoints [67] and [1]. -/
theorem C4_depends_idempotent_witness :
    enable_depends [67] [⟨1, 6⟩] = some [67]
    ∧ disable_depends [1] [⟨1, 6⟩] = some [1] :=
  ⟨(C4_depends_idempotent [3] [⟨1, 6⟩]).1 [67] (by decide),
   (C4_depends_idempotent [3] [⟨1, 6⟩]).2 [1] (by decide)⟩

/-- C5 counterexample: the bit operations do not silently ignore the
uint32::MAX sentinel.  They address word 0xFFFFFFFF / 32 = 134217727, which
for the one-word FeatureList below is an out-of-bounds access (modelled as
none), not an unchanged set and a bit reported absent. -/
theorem C5_sentinel_counterexample :
    test_nbit [0] 4294967295 ≠ some false
    ∧ set_bit [0] 4294967295 true ≠ some [0]
    ∧ unset_bits [0] 4294967295 ≠ some [0]
    ∧ test_nbit [0] 4294967295 = none := by
  refine ⟨?_, ?_, ?_, ?_⟩ <;> decide

/-- C5 (amended): the bit operations test_nbit, set_bit and unset_bits do
not special-case the bit-index sentinel uint32::MAX.  They address word
index 134217727 and bit 31 like any other index, which is an out-of-bounds
access for every FeatureList with at most 134217727 words; consequently a
dependency-closure walk that reaches an edge carrying the sentinel also
fails rather than ignoring the edge.  Sentinel filtering is the caller's
responsibility. -/
theorem C5_sentinel_oob (bits : List Nat) (v : Bool) (h : bits.length < 134217728) :
    test_nbit bits 4294967295 = none
    ∧ set_bit bits 4294967295 v = none
    ∧ unset_bits bits 4294967295 = none
    ∧ enable_depends bits [⟨4294967295, 0⟩] = none
    ∧ disable_depends bits [⟨4294967295, 0⟩] = none := by
  have hidx : (4294967295 % 4294967296) / 32 = 134217727 := by norm_num
  have hnone : bits[(4294967295 % 4294967296) / 32]? = none := by
    rw [hidx]
    exact List.getElem?_eq_none (by omega)
  have htn : test_nbit bits 4294967295 = none := by
    unfold test_nbit
    rw [hnone]
  have hsb : set_bit bits 4294967295 v = none := by
    unfold set_bit
    rw [hnone]
  have hub : unset_bits bits 4294967295 = none := by
    unfold unset_bits
    rw [hnone]
  have hpass : ed_pass bits [⟨4294967295, 0⟩] = none := by
    unfold ed_pass
    simp only [List.reverse_cons, List.reverse_nil, List.nil_append, List.foldl_cons,
      List.foldl_nil]
    simp only [ed_step]
    rw [htn]
  have hpassd : dd_pass bits [⟨4294967295, 0⟩] = none := by
    unfold dd_pass
    simp only [List.reverse_cons, List.reverse_nil, List.nil_append, List.foldl_cons,
      List.foldl_nil]
    simp only [dd_step]
    rw [htn]
  refine ⟨htn, hsb, hub, ?_, ?_⟩
  · unfold enable_depends
    unfold ed_iter
    rw [hpass]
  · unfold disable_depends
    unfold dd_iter
    rw [hpassd]

/-- Witness for the amended C5 at a concrete input. -/
theorem C5_sentinel_oob_witness :
    test_nbit [5, 7] 4294967295 = none
    ∧ set_bit [5, 7] 4294967295 false = none
    ∧ unset_bits [5, 7] 4294967295 = none
    ∧ enable_depends [5, 7] [⟨4294967295, 0⟩] = none
    ∧ disable_depends [5, 7] [⟨4294967295, 0⟩] = none :=
  C5_sentinel_oob [5, 7] false (by decide)

/-- The CLONE_ALL flag bit.  Modelled from the spec: the constant is declared
in processor.h, which is not among the sources; the spec fixes only that it
is the single defined bit of the en / dis flags bitfield, so its concrete
value does not matter to any claim. -/
def JL_TARGET_CLONE_ALL : Nat := 2

/-- Source TargetData<n> (processor.cpp lines 429-438), with the nested
en / dis pairs flattened into four fields.  Strings are lists of characters;
the feature sets keep the list-of-words representation; base (a C int that
is only ever assigned previous target indices) is a Nat. -/
structure TargetData where
  name : List Char
  ext_features : List Char
  en_features : List Nat
  dis_features : List Nat
  en_flags : Nat
  dis_flags : Nat
  base : Nat
deriving DecidableEq

/-- The ASCII digit test the source writes as !(*p > '9' || *p < '0'). -/
def is_digit (c : Char) : Bool := decide ('0' ≤ c) && decide (c ≤ '9')

/-- Decimal value of a digit string, as strtol computes it on an all-digit
input (the source has already checked the first character is a digit). -/
def str_to_nat (ds : List Char) : Nat :=
  ds.foldl (fun a c => 10 * a + (c.toNat - 48)) 0

/-- Two's-complement wrap of an integer into the int range [-2^31, 2^31):
the effect of the source's (int) cast of the strtol result and of int
arithmetic wrap-around on every platform the source targets. -/
def wrap32 (x : Int) : Int := (x + 2147483648) % 4294967296 - 2147483648

/-- Source get_clone_base (processor.cpp lines 475-493): tokens of the exact
shape base(<digits>) yield (int)idx + 1, where idx is the strtol value (a
long, clamped to LONG_MAX on overflow) and the final (int) cast truncates it
mod 2^32 (line 492); anything else yields 0.  The one int overflow,
(int)idx + 1 at (int)idx = INT_MAX, is modelled as the wrap-around the
source's compilers produce. -/
def get_clone_base (tok : List Char) : Int :=
  if tok.length ≤ 5 then 0
  else if tok.take 5 ≠ "base(".toList then 0
  else
    if (tok.drop 5).takeWhile is_digit = [] then 0
    else if (tok.drop 5).drop ((tok.drop 5).takeWhile is_digit).length = [')'] then
      wrap32 (wrap32 ((min (str_to_nat ((tok.drop 5).takeWhile is_digit))
        9223372036854775807 : Nat) : Int) + 1)
    else 0

/-- The polarity handling at processor.cpp lines 531-541: a leading minus
means disable, a leading plus is skipped, the default is enable. -/
def strip_sign : List Char → Bool × List Char
  | '-' :: rest => (true, rest)
  | '+' :: rest => (false, rest)
  | tok => (false, tok)

/-- One feature token of a target: the token half of the delimiter case of
parse_cmdline (processor.cpp lines 542-573).  The callback stands for the
feature_cb parameter: handed the token text and the feature list selected by
the polarity, it returns the updated list, or none when the token is not a
recognized feature name.  In the base branch, base -= 1 and the comparison
against (int)res.size() are int operations, wrapped through wrap32; when the
resulting base is negative the source indexes the target vector out of
bounds (undefined behaviour), modelled here as a fatal stop in line with the
none-for-out-of-bounds convention of this file. -/
def process_token (cb : List Char → List Nat → Option (List Nat))
    (res : List TargetData) (arg : TargetData) (tok : List Char) :
    Except String TargetData :=
  let disable := (strip_sign tok).1
  let fname := (strip_sign tok).2
  if fname = "clone_all".toList then
    if disable then
      .ok { arg with dis_flags := arg.dis_flags ||| JL_TARGET_CLONE_ALL,
                     en_flags := arg.en_flags &&& not32 JL_TARGET_CLONE_ALL }
    else
      .ok { arg with en_flags := arg.en_flags ||| JL_TARGET_CLONE_ALL,
                     dis_flags := arg.dis_flags &&& not32 JL_TARGET_CLONE_ALL }
  else if get_clone_base fname ≠ 0 then
    if disable then .error "Invalid target option: disabled base index."
    else if (res.length : Int) ≤ wrap32 (get_clone_base fname - 1) then
      .error "Invalid target option: base index must refer to a previous target."
    else if wrap32 (get_clone_base fname - 1) < 0 then
      .error "out-of-bounds base target index (undefined behaviour in the source)"
    else
      match res[(wrap32 (get_clone_base fname - 1)).toNat]? with
      | none =>
        .error "out-of-bounds base target index (undefined behaviour in the source)"
      | some t =>
        if t.dis_flags &&& JL_TARGET_CLONE_ALL ≠ 0 ∨
            t.en_flags &&& JL_TARGET_CLONE_ALL = 0 then
          .error "Invalid target option: base target must be clone_all."
        else .ok { arg with base := (wrap32 (get_clone_base fname - 1)).toNat }
  else
    match cb fname (if disable then arg.dis_features else arg.en_features) with
    | some list2 =>
      if disable then .ok { arg with dis_features := list2 }
      else .ok { arg with en_features := list2 }
    | none =>
      .ok { arg with ext_features :=
        arg.ext_features ++ (if arg.ext_features = [] then [] else [','])
          ++ [if disable then '-' else '+'] ++ fname }

/-- Source reset_arg (processor.cpp lines 503-511): push the record and clear
every field except base, which the C++ lambda does not reset. -/
def reset_arg (n : Nat) (arg : TargetData) : TargetData :=
  { name := [], ext_features := [], en_features := List.replicate n 0,
    dis_features := List.replicate n 0, en_flags := 0, dis_flags := 0,
    base := arg.base }

/-- One delimiter event of the parse_cmdline scan (processor.cpp lines
514-578): the segment becomes the CPU name while it is still empty and a
feature token afterwards; a target delimiter commits the record. -/
def handle_seg (cb : List Char → List Nat → Option (List Nat)) (n : Nat)
    (seg : List Char) (arg : TargetData) (res : List TargetData)
    (next_target : Bool) : Except String (TargetData × List TargetData) :=
  if arg.name = [] then
    if seg = [] then .error "Invalid target option: empty CPU name"
    else
      let arg2 := { arg with name := arg.name ++ seg }
      if next_target then .ok (reset_arg n arg2, res ++ [arg2]) else .ok (arg2, res)
  else
    match process_token cb res arg seg with
    | .error e => .error e
    | .ok arg2 =>
      if next_target then .ok (reset_arg n arg2, res ++ [arg2]) else .ok (arg2, res)

/-- The character scan of parse_cmdline: ordinary characters extend the
current segment, a comma ends a token, a semicolon ends a target, and the
end of the string ends the list (the switch on ',', ';', '\x00'). -/
def parse_loop (cb : List Char → List Nat → Option (List Nat)) (n : Nat) :
    List Char → List Char → TargetData → List TargetData →
    Except String (List TargetData)
  | [], seg, arg, res =>
    match handle_seg cb n seg arg res true with
    | .error e => .error e
    | .ok (_, res2) => .ok res2
  | c :: rest, seg, arg, res =>
    if c = ',' ∨ c = ';' then
      match handle_seg cb n seg arg res (c = ';') with
      | .error e => .error e
      | .ok (arg2, res2) => parse_loop cb n rest [] arg2 res2
    else
      parse_loop cb n rest (seg ++ [c]) arg res

/-- The zero-initialized TargetData arg of parse_cmdline (line 502). -/
def init_target (n : Nat) : TargetData :=
  { name := [], ext_features := [], en_features := List.replicate n 0,
    dis_features := List.replicate n 0, en_flags := 0, dis_flags := 0, base := 0 }

/-- Source parse_cmdline (processor.cpp lines 495-585), for the FeatureList
word count n of the instantiation; a null option pointer is the none case. -/
def parse_cmdline (cb : List Char → List Nat → Option (List Nat)) (n : Nat) :
    Option (List Char) → Except String (List TargetData)
  | none => .ok []
  | some chars => parse_loop cb n chars [] (init_target n) []

theorem takeWhile_digits (ds : List Char) (hdig : ∀ c ∈ ds, is_digit c = true) :
    (ds ++ [')']).takeWhile is_digit = ds := by
  induction ds with
  | nil => decide
  | cons c ds ih =>
    have hc : is_digit c = true := hdig c (List.mem_cons_self c ds)
    rw [List.cons_append, List.takeWhile_cons, hc]
    simp only [if_pos]
    rw [ih (fun x hx => hdig x (List.mem_cons_of_mem c hx))]

/-- A well-formed base(<digits>) token whose value stays below INT_MAX
parses to its index plus one: there the int truncation is the identity. -/
theorem get_clone_base_wf (ds : List Char) (hds : ds ≠ [])
    (hdig : ds.all is_digit = true) (hsmall : str_to_nat ds < 2147483647) :
    get_clone_base ("base(".toList ++ (ds ++ [')'])) = (str_to_nat ds : Int) + 1 := by
  have hdig' : ∀ c ∈ ds, is_digit c = true := List.all_eq_true.mp hdig
  have hlen : ("base(".toList ++ (ds ++ [')'])).length = ds.length + 6 := by
    simp [List.length_append]
  have hlen1 : 1 ≤ ds.length := by
    cases ds with
    | nil => exact absurd rfl hds
    | cons c l => simp
  have htake : ("base(".toList ++ (ds ++ [')'])).take 5 = "base(".toList := by
    rw [show (5 : Nat) = ("base(".toList).length from rfl]
    exact List.take_left _ _
  have hdrop : ("base(".toList ++ (ds ++ [')'])).drop 5 = ds ++ [')'] := by
    rw [show (5 : Nat) = ("base(".toList).length from rfl]
    exact List.drop_left _ _
  have htw : ((("base(".toList ++ (ds ++ [')'])).drop 5).takeWhile is_digit) = ds := by
    rw [hdrop]
    exact takeWhile_digits ds hdig'
  unfold get_clone_base
  rw [if_neg (by omega), if_neg (by rw [htake]; exact fun h => h rfl), htw, if_neg hds,
    hdrop, List.drop_left, if_pos rfl]
  rw [Nat.min_eq_left (by omega : str_to_nat ds ≤ 9223372036854775807)]
  unfold wrap32
  omega

/-- C6 counterexample: the claim asserts a fatal error for every well-formed
token base(k) with k at least the current index, but the source truncates
the strtol result through an (int) cast (processor.cpp line 492), so
base(4294967296) acts as base(0): this parse succeeds with no error and
assigns base 0, although k = 2^32 is at least the current index 1. -/
theorem C6_base_counterexample :
    parse_cmdline (fun _ _ => none) 1
      (some ("generic,clone_all;haswell,base(4294967296)".toList)) =
      .ok [⟨"generic".toList, [], [0], [0], 2, 0, 0⟩,
        ⟨"haswell".toList, [], [0], [0], 0, 0, 0⟩] := by rfl

/-- C6 (amended): a well-formed token base(k) whose written value is below
INT_MAX — so the source's int truncation of the strtol result is the
identity — at a target with current index i (the length of the committed
list res) is fatal when the polarity is disable, when k is at least i
(res[k]? = none), or when the k-th target lacks CLONE_ALL in en.flags or
carries it in dis.flags; otherwise it assigns base = k.  In particular
"generic;haswell,base(5)" dies with the previous-target error.  For larger
written values only the strtol value truncated to int takes effect. -/
theorem C6_base_token (cb : List Char → List Nat → Option (List Nat))
    (res : List TargetData) (arg : TargetData) (tok fname ds : List Char)
    (disable : Bool) (k : Nat)
    (hs : strip_sign tok = (disable, fname))
    (hf : fname = "base(".toList ++ (ds ++ [')']))
    (hds : ds ≠ []) (hdig : ds.all is_digit = true)
    (hsmall : str_to_nat ds < 2147483647)
    (hk : str_to_nat ds = k) :
    (disable = true → process_token cb res arg tok =
        .error "Invalid target option: disabled base index.")
    ∧ (disable = false → res[k]? = none → process_token cb res arg tok =
        .error "Invalid target option: base index must refer to a previous target.")
    ∧ (disable = false → ∀ t, res[k]? = some t →
        ((t.dis_flags &&& JL_TARGET_CLONE_ALL ≠ 0 ∨
            t.en_flags &&& JL_TARGET_CLONE_ALL = 0) →
          process_token cb res arg tok =
            .error "Invalid target option: base target must be clone_all.")
        ∧ (¬ (t.dis_flags &&& JL_TARGET_CLONE_ALL ≠ 0 ∨
            t.en_flags &&& JL_TARGET_CLONE_ALL = 0) →
          process_token cb res arg tok = .ok { arg with base := k }))
    ∧ parse_cmdline (fun _ _ => none) 1 (some ("generic;haswell,base(5)".toList)) =
        .error "Invalid target option: base index must refer to a previous target." := by
  have hgcb : get_clone_base fname = (k : Int) + 1 := by
    rw [hf, get_clone_base_wf ds hds hdig hsmall, hk]
  have hk31 : k < 2147483647 := hk ▸ hsmall
  have hnz : ((k : Int) + 1) ≠ 0 := by omega
  have hbase : wrap32 ((k : Int) + 1 - 1) = (k : Int) := by
    unfold wrap32
    omega
  have hnc : fname ≠ "clone_all".toList := by
    intro h
    have h1 : fname.take 5 = "base(".toList := by
      rw [hf, show (5 : Nat) = ("base(".toList).length from rfl]
      exact List.take_left _ _
    rw [h] at h1
    exact absurd h1 (by decide)
  refine ⟨?_, ?_, ?_, ?_⟩
  · intro hd
    simp only [process_token, hs]
    rw [if_neg hnc, hgcb]
    rw [if_pos hnz, hd]
    simp
  · intro hd hnone
    have hlen : res.length ≤ k := List.getElem?_eq_none_iff.mp hnone
    simp only [process_token, hs]
    rw [if_neg hnc, hgcb]
    rw [if_pos hnz, hd]
    simp only [Bool.false_eq_true, if_false]
    rw [hbase, if_pos (show (res.length : Int) ≤ (k : Int) by exact_mod_cast hlen)]
  · intro hd t hsome
    have hklen : k < res.length := (List.getElem?_eq_some.mp hsome).1
    constructor
    · intro hbad
      simp only [process_token, hs]
      rw [if_neg hnc, hgcb]
      rw [if_pos hnz, hd]
      simp only [Bool.false_eq_true, if_false]
      rw [hbase, if_neg (show ¬ ((res.length : Int) ≤ (k : Int)) by
        simp only [not_le]; exact_mod_cast hklen)]
      rw [if_neg (show ¬ ((k : Int) < 0) by omega), Int.toNat_natCast, hsome]
      simp only [if_pos hbad]
    · intro hgood
      simp only [process_token, hs]
      rw [if_neg hnc, hgcb]
      rw [if_pos hnz, hd]
      simp only [Bool.false_eq_true, if_false]
      rw [hbase, if_neg (show ¬ ((res.length : Int) ≤ (k : Int)) by
        simp only [not_le]; exact_mod_cast hklen)]
      rw [if_neg (show ¬ ((k : Int) < 0) by omega), Int.toNat_natCast, hsome]
      simp only [if_neg hgood]
  · rfl

/-- Witness for the amended C6 at a concrete input: base(0) over a committed
clone_all target is accepted and assigns base = 0. -/
theorem C6_base_token_witness :
    process_token (fun _ _ => none)
        [⟨"generic".toList, [], [0], [0], 2, 0, 0⟩] (init_target 1)
        ("base(0)".toList) = .ok { init_target 1 with base := 0 } :=
  ((C6_base_token (fun _ _ => none)
      [⟨"generic".toList, [], [0], [0], 2, 0, 0⟩] (init_target 1)
      ("base(0)".toList) ("base(0)".toList) ['0'] false 0
      rfl rfl (by decide) (by decide) (by decide) rfl).2.2.1
    rfl ⟨"generic".toList, [], [0], [0], 2, 0, 0⟩ rfl).2 (by decide)

/-- C7 counterexample: a token that begins with base( but is malformed (a
non-digit where the index should be) does NOT make parse_cmdline raise a
fatal parse error; the parse succeeds and the token lands in ext_features. -/
theorem C7_malformed_base_counterexample :
    parse_cmdline (fun _ _ => none) 1 (some ("generic,base(x)".toList)) =
      .ok [⟨"generic".toList, "+base(x)".toList, [0], [0], 0, 0, 0⟩] := by rfl

/-- C7 (amended): a token that begins with the prefix base( but is malformed
(get_clone_base rejects it: non-digit index, missing or misplaced closing
parenthesis, or trailing characters) is not a parse error.  It falls through
to the feature callback like any other token, and when the callback does not
recognize it, it is appended verbatim with its polarity sign to
ext_features. -/
theorem C7_malformed_base_ext (cb : List Char → List Nat → Option (List Nat))
    (res : List TargetData) (arg : TargetData) (tok fname : List Char)
    (disable : Bool)
    (hs : strip_sign tok = (disable, fname))
    (hpre : fname.take 5 = "base(".toList)
    (hmal : get_clone_base fname = 0) :
    (∀ e, process_token cb res arg tok ≠ .error e)
    ∧ (cb fname (if disable then arg.dis_features else arg.en_features) = none →
        process_token cb res arg tok =
          .ok { arg with ext_features :=
            arg.ext_features ++ (if arg.ext_features = [] then [] else [','])
              ++ [if disable then '-' else '+'] ++ fname }) := by
  have hnc : fname ≠ "clone_all".toList := by
    intro h
    rw [h] at hpre
    exact absurd hpre (by decide)
  constructor
  · intro e
    simp only [process_token, hs]
    rw [if_neg hnc, hmal]
    simp only [ne_eq, not_true_eq_false, if_false]
    cases cb fname (if disable then arg.dis_features else arg.en_features) with
    | none => simp
    | some l2 => cases disable <;> simp
  · intro hcb
    simp only [process_token, hs]
    rw [if_neg hnc, hmal]
    simp only [ne_eq, not_true_eq_false, if_false]
    rw [hcb]

/-- Witness for the amended C7 at a concrete input: base(5x) has trailing
characters after the digits, is rejected by get_clone_base, and is forwarded
to ext_features. -/
theorem C7_malformed_base_ext_witness :
    process_token (fun _ _ => none) [] (init_target 1) ("base(5x)".toList) =
      .ok { init_target 1 with ext_features :=
        ([] : List Char) ++ (if ([] : List Char) = [] then [] else [','])
          ++ ['+'] ++ "base(5x)".toList } :=
  (C7_malformed_base_ext (fun _ _ => none) [] (init_target 1)
    ("base(5x)".toList) ("base(5x)".toList) false rfl (by decide) (by decide)).2 rfl

/-- C8: a token that is not clone_all, not a base(k) form, and not
recognized by the feature callback is not an error: it is appended verbatim
with its polarity sign to the current target's ext_features, comma-separated
from what is already there.  In particular "generic,+future_isa_x" parses to
one target with empty en.features and ext_features "+future_isa_x". -/
theorem C8_unknown_feature (cb : List Char → List Nat → Option (List Nat))
    (res : List TargetData) (arg : TargetData) (tok fname : List Char)
    (disable : Bool)
    (hs : strip_sign tok = (disable, fname))
    (hnc : fname ≠ "clone_all".toList)
    (hnb : get_clone_base fname = 0)
    (hcb : cb fname (if disable then arg.dis_features else arg.en_features) = none) :
    process_token cb res arg tok =
      .ok { arg with ext_features :=
        arg.ext_features ++ (if arg.ext_features = [] then [] else [','])
          ++ [if disable then '-' else '+'] ++ fname }
    ∧ parse_cmdline (fun _ _ => none) 1 (some ("generic,+future_isa_x".toList)) =
      .ok [⟨"generic".toList, "+future_isa_x".toList, [0], [0], 0, 0, 0⟩] := by
  constructor
  · simp only [process_token, hs]
    rw [if_neg hnc, hnb]
    simp only [ne_eq, not_true_eq_false, if_false]
    rw [hcb]
  · rfl

/-- Witness for C8 at a concrete input. -/
theorem C8_unknown_feature_witness :
    process_token (fun _ _ => none) [] (init_target 1) ("+future_isa_x".toList) =
      .ok { init_target 1 with ext_features :=
        ([] : List Char) ++ (if ([] : List Char) = [] then [] else [','])
          ++ ['+'] ++ "future_isa_x".toList }
    ∧ parse_cmdline (fun _ _ => none) 1 (some ("generic,+future_isa_x".toList)) =
      .ok [⟨"generic".toList, "+future_isa_x".toList, [0], [0], 0, 0, 0⟩] :=
  C8_unknown_feature (fun _ _ => none) [] (init_target 1)
    ("+future_isa_x".toList) ("future_isa_x".toList) false
    rfl (by decide) (by decide) rfl

/-- Four little-endian bytes of a uint32 value, as memcpy lays one out on
the little-endian hosts the sysimg format targets. -/
def bytes_of_u32 (w : Nat) : List Nat :=
  [w % 256, w / 256 % 256, w / 65536 % 256, w / 16777216 % 256]

/-- Read one uint32 (the load_data(&x, 4) pattern of the deserializer);
none models reading past the end of the blob. -/
def read_u32 : List Nat → Option (Nat × List Nat)
  | a :: b :: c :: d :: rest => some (a + 256 * b + 65536 * c + 16777216 * d, rest)
  | _ => none

/-- Source serialize_target_data (processor.cpp lines 396-427), at the
FeatureList instantiation where nfeature is the word count of the en set:
the count, the two word arrays, then the two length-prefixed strings. -/
def serialize_target_data (name : List Char) (features_en features_dis : List Nat)
    (ext : List Char) : List Nat :=
  bytes_of_u32 features_en.length
    ++ (features_en.map bytes_of_u32).flatten
    ++ (features_dis.map bytes_of_u32).flatten
    ++ bytes_of_u32 name.length ++ name.map Char.toNat
    ++ bytes_of_u32 ext.length ++ ext.map Char.toNat

/-- Read k uint32 words (the load_data of a feature array). -/
def read_words : Nat → List Nat → Option (List Nat × List Nat)
  | 0, data => some ([], data)
  | k + 1, data =>
    (read_u32 data).bind fun p =>
    (read_words k p.2).bind fun q => some (p.1 :: q.1, q.2)

/-- The load_string lambda of the deserializer (processor.cpp lines
447-453): a uint32 length then that many bytes. -/
def load_string (data : List Nat) : Option (List Char × List Nat) :=
  (read_u32 data).bind fun p =>
    if p.1 ≤ p.2.length then some ((p.2.take p.1).map Char.ofNat, p.2.drop p.1)
    else none

/-- One record of deserialize_target_data (processor.cpp lines 457-470):
en.flags, the feature count (asserted equal to n), the en and dis arrays,
the name and ext_features strings; dis.flags and base are restored to 0. -/
def deserialize_one (n : Nat) (data : List Nat) : Option (TargetData × List Nat) :=
  (read_u32 data).bind fun p1 =>
  (read_u32 p1.2).bind fun p2 =>
  if p2.1 = n then
    (read_words n p2.2).bind fun q1 =>
    (read_words n q1.2).bind fun q2 =>
    (load_string q2.2).bind fun s1 =>
    (load_string s1.2).bind fun s2 =>
    some (⟨s1.1, s2.1, q1.1, q2.1, p1.1, 0, 0⟩, s2.2)
  else none

/-- The ntarget loop of the deserializer. -/
def deserialize_list (n : Nat) : Nat → List Nat → Option (List TargetData)
  | 0, _ => some []
  | k + 1, data =>
    (deserialize_one n data).bind fun td =>
    (deserialize_list n k td.2).bind fun ts => some (td.1 :: ts)

/-- Source deserialize_target_data (processor.cpp lines 440-472). -/
def deserialize_target_data (n : Nat) (data : List Nat) : Option (List TargetData) :=
  (read_u32 data).bind fun p => deserialize_list n p.1 p.2

theorem read_u32_bytes (w : Nat) (hw : w < 4294967296) (rest : List Nat) :
    read_u32 (bytes_of_u32 w ++ rest) = some (w, rest) := by
  simp only [bytes_of_u32, List.cons_append, List.nil_append, read_u32,
    Option.some.injEq, Prod.mk.injEq]
  refine ⟨by omega, trivial⟩

theorem read_words_join (ws : List Nat) (hw : ∀ w ∈ ws, w < 4294967296)
    (rest : List Nat) :
    read_words ws.length ((ws.map bytes_of_u32).flatten ++ rest) = some (ws, rest) := by
  induction ws with
  | nil => rfl
  | cons w ws ih =>
    show read_words (ws.length + 1) _ = _
    simp only [List.map_cons, List.flatten_cons, List.append_assoc]
    unfold read_words
    rw [read_u32_bytes w (hw w (List.mem_cons_self w ws))]
    simp only [Option.some_bind]
    rw [ih (fun x hx => hw x (List.mem_cons_of_mem w hx))]
    rfl

theorem load_string_bytes (s : List Char) (hs : s.length < 4294967296)
    (rest : List Nat) :
    load_string (bytes_of_u32 s.length ++ (s.map Char.toNat ++ rest)) = some (s, rest) := by
  unfold load_string
  rw [read_u32_bytes s.length hs]
  simp only [Option.some_bind]
  have hle : s.length ≤ (s.map Char.toNat ++ rest).length := by
    simp [List.length_append]
  rw [if_pos hle]
  have htake : (s.map Char.toNat ++ rest).take s.length = s.map Char.toNat := by
    rw [show s.length = (s.map Char.toNat).length from (List.length_map s Char.toNat).symm]
    exact List.take_left _ _
  have hdrop : (s.map Char.toNat ++ rest).drop s.length = rest := by
    rw [show s.length = (s.map Char.toNat).length from (List.length_map s Char.toNat).symm]
    exact List.drop_left _ _
  rw [htake, hdrop]
  simp only [List.map_map, Option.some.injEq, Prod.mk.injEq]
  rw [show Char.ofNat ∘ Char.toNat = id from funext Char.ofNat_toNat, List.map_id]
  exact ⟨rfl, trivial⟩

/-- C9: deserializing the serialization of a TargetData recovers it.  The
blob is a target count of 1, the en.flags word, then the serialized record;
the result is the original up to the flag-field restoration rules (dis.flags
and base come back as the fixed default 0).  The bounds record that every
serialized quantity is a uint32 and every character a byte. -/
theorem C9_serialize_roundtrip (T : TargetData)
    (hlen : T.dis_features.length = T.en_features.length)
    (hwords : ∀ w ∈ T.en_features ++ T.dis_features, w < 4294967296)
    (hflags : T.en_flags < 4294967296)
    (hn : T.en_features.length < 4294967296)
    (hname : T.name.length < 4294967296)
    (hext : T.ext_features.length < 4294967296)
    (_hbytes : ∀ c ∈ T.name ++ T.ext_features, c.toNat < 256) :
    deserialize_target_data T.en_features.length
      (bytes_of_u32 1 ++ bytes_of_u32 T.en_flags
        ++ serialize_target_data T.name T.en_features T.dis_features T.ext_features) =
      some [{ T with dis_flags := 0, base := 0 }] := by
  have hen : ∀ w ∈ T.en_features, w < 4294967296 := by
    intro w hw
    exact hwords w (List.mem_append_left _ hw)
  have hdis : ∀ w ∈ T.dis_features, w < 4294967296 := by
    intro w hw
    exact hwords w (List.mem_append_right _ hw)
  unfold deserialize_target_data serialize_target_data
  simp only [List.append_assoc]
  rw [read_u32_bytes 1 (by norm_num)]
  simp only [Option.some_bind]
  unfold deserialize_list
  unfold deserialize_one
  rw [read_u32_bytes T.en_flags hflags]
  simp only [Option.some_bind]
  rw [read_u32_bytes T.en_features.length hn]
  simp only [Option.some_bind, if_pos rfl]
  rw [read_words_join T.en_features hen]
  simp only [Option.some_bind]
  have hdisw := read_words_join T.dis_features hdis
    (bytes_of_u32 T.name.length ++ (T.name.map Char.toNat ++ (bytes_of_u32
      T.ext_features.length ++ (T.ext_features.map Char.toNat ++ []))))
  rw [hlen] at hdisw
  rw [show T.ext_features.map Char.toNat ++ [] = T.ext_features.map Char.toNat
    from List.append_nil _] at hdisw
  rw [hdisw]
  simp only [Option.some_bind]
  rw [load_string_bytes T.name hname]
  simp only [Option.some_bind]
  have hextw := load_string_bytes T.ext_features hext []
  rw [show T.ext_features.map Char.toNat ++ [] = T.ext_features.map Char.toNat
    from List.append_nil _] at hextw
  rw [hextw]
  rfl

/-- Witness for C9 at a concrete input. -/
theorem C9_serialize_roundtrip_witness :
    deserialize_target_data (List.length [3])
      (bytes_of_u32 1 ++ bytes_of_u32 2
        ++ serialize_target_data ['a'] [3] [5] ['+', 'x']) =
      some [{ (⟨['a'], ['+', 'x'], [3], [5], 2, 0, 0⟩ : TargetData) with
        dis_flags := 0, base := 0 }] :=
  C9_serialize_roundtrip ⟨['a'], ['+', 'x'], [3], [5], 2, 0, 0⟩
    (by decide) (by decide) (by decide) (by decide) (by decide) (by decide) (by decide)

/-- C10: a null option string makes parse_cmdline return the empty target
list without error, and every TargetData produced by deserialize_target_data
has dis.flags = 0 and base = 0, whatever the input bytes. -/
theorem C10_null_and_restored_defaults :
    (∀ (cb : List Char → List Nat → Option (List Nat)) (n : Nat),
      parse_cmdline cb n none = .ok [])
    ∧ (∀ (n : Nat) (data : List Nat) (ts : List TargetData),
        deserialize_target_data n data = some ts →
        ∀ t ∈ ts, t.dis_flags = 0 ∧ t.base = 0) := by
  have hone : ∀ n data t rest, deserialize_one n data = some (t, rest) →
      t.dis_flags = 0 ∧ t.base = 0 := by
    intro n data t rest h
    unfold deserialize_one at h
    rcases Option.bind_eq_some.mp h with ⟨p1, hp1, h⟩
    rcases Option.bind_eq_some.mp h with ⟨p2, hp2, h⟩
    by_cases hpn : p2.1 = n
    · rw [if_pos hpn] at h
      rcases Option.bind_eq_some.mp h with ⟨q1, hq1, h⟩
      rcases Option.bind_eq_some.mp h with ⟨q2, hq2, h⟩
      rcases Option.bind_eq_some.mp h with ⟨s1, hs1, h⟩
      rcases Option.bind_eq_some.mp h with ⟨s2, hs2, h⟩
      simp only [Option.some.injEq, Prod.mk.injEq] at h
      rw [← h.1]
      exact ⟨rfl, rfl⟩
    · rw [if_neg hpn] at h
      cases h
  have hlist : ∀ n k data ts, deserialize_list n k data = some ts →
      ∀ t ∈ ts, t.dis_flags = 0 ∧ t.base = 0 := by
    intro n k
    induction k with
    | zero =>
      intro data ts h t ht
      unfold deserialize_list at h
      cases h
      cases ht
    | succ m ih =>
      intro data ts h t ht
      unfold deserialize_list at h
      rcases Option.bind_eq_some.mp h with ⟨td, htd, h⟩
      rcases Option.bind_eq_some.mp h with ⟨ts2, hts2, h⟩
      cases h
      rcases List.mem_cons.mp ht with he | hm
      · exact he ▸ hone n data td.1 td.2 (by rw [htd])
      · exact ih td.2 ts2 hts2 t hm
  refine ⟨fun cb n => rfl, ?_⟩
  intro n data ts h t ht
  unfold deserialize_target_data at h
  rcases Option.bind_eq_some.mp h with ⟨p, hp, h⟩
  exact hlist n p.1 p.2 ts h t ht

/-- Witness for C10 at a concrete input: a blob with one target whose flag
word is 7 still comes back with dis.flags = 0 and base = 0. -/
theorem C10_null_and_restored_defaults_witness :
    parse_cmdline (fun _ _ => none) 1 none = .ok []
    ∧ (⟨[], [], [3], [5], 7, 0, 0⟩ : TargetData).dis_flags = 0
    ∧ (⟨[], [], [3], [5], 7, 0, 0⟩ : TargetData).base = 0 :=
  ⟨C10_null_and_restored_defaults.1 (fun _ _ => none) 1,
   (C10_null_and_restored_defaults.2 1
      [1, 0, 0, 0, 7, 0, 0, 0, 1, 0, 0, 0, 3, 0, 0, 0, 5, 0, 0, 0,
       0, 0, 0, 0, 0, 0, 0, 0]
      [⟨[], [], [3], [5], 7, 0, 0⟩] (by decide)
      ⟨[], [], [3], [5], 7, 0, 0⟩ (by decide)).1,
   (C10_null_and_restored_defaults.2 1
      [1, 0, 0, 0, 7, 0, 0, 0, 1, 0, 0, 0, 3, 0, 0, 0, 5, 0, 0, 0,
       0, 0, 0, 0, 0, 0, 0, 0]
      [⟨[], [], [3], [5], 7, 0, 0⟩] (by decide)
      ⟨[], [], [3], [5], 7, 0, 0⟩ (by decide)).2⟩

/-- The sysimg dispatch blobs parse_sysimg reads through jl_dlsym, with each
count word folded into its list's length (jl_sysimg_fvars_offsets and
jl_dispatch_reloc_slots keep their counts at offsets[-1]).  reloc_slots
pairs are (function index, data offset from jl_sysimg_gvars_base). -/
structure SysimgData where
  fvars_offsets : List Int
  reloc_slots : List (Nat × Int)
  clone_idxs : List Nat
  clone_offsets : List Int
deriving DecidableEq

/-- The jl_sysimg_fptrs_t result of parse_sysimg: the default offsets table
and the sparse clone triple (empty when the chosen target is clone_all). -/
structure FnPtrs where
  offsets : List Int
  nclones : Nat
  clone_offsets : List Int
  clone_idxs : List Nat
deriving DecidableEq

/-- The find-target loop of parse_sysimg (processor.cpp lines 621-634):
advance the clone_idxs cursor past target i's tag-and-index block and the
clone_offsets cursor past its offsets block (clone_all targets other than 0
own nfunc offsets, sparse targets own len offsets and one extra index word),
read the next tag, and push the next target's offsets block (none when it is
not clone_all) onto base_offsets. -/
def walk_targets (nfunc : Nat) :
    Nat → Nat → Nat → List Nat → List Int → List (Option (List Int)) →
    Option (Nat × List Nat × List Int × List (Option (List Int)))
  | 0, _, tag_len, cidxs, coffs, bos => some (tag_len, cidxs, coffs, bos)
  | count + 1, i, tag_len, cidxs, coffs, bos =>
    let len := tag_len &&& 2147483647
    if tag_len &&& 2147483648 ≠ 0 then
      let coffs2 := if i = 0 then coffs else coffs.drop nfunc
      match cidxs[len]? with
      | none => none
      | some tl =>
        walk_targets nfunc count (i + 1) tl (cidxs.drop (len + 1)) coffs2
          (bos ++ [if tl &&& 2147483648 ≠ 0 then some coffs2 else none])
    else
      let coffs2 := coffs.drop len
      match cidxs[len + 1]? with
      | none => none
      | some tl =>
        walk_targets nfunc count (i + 1) tl (cidxs.drop (len + 2)) coffs2
          (bos ++ [if tl &&& 2147483648 ≠ 0 then some coffs2 else none])

/-- The state of parse_sysimg when its relocation pass starts: the selected
target's tag word, the offsets table res.offsets now points to, the
clone_idxs and clone_offsets cursors, and the assembled fptrs result. -/
structure SetupResult where
  tag_len : Nat
  res_offsets : List Int
  cidxs : List Nat
  coffs : List Int
  fptrs : FnPtrs
deriving DecidableEq

/-- Lines 598-655 of parse_sysimg: read the first tag (asserted clone_all),
walk to the chosen target, then either swap in the clone_all offsets table
or resolve the sparse base target from base_offsets (asserting the base is
an earlier, recorded clone_all target). -/
def sysimg_setup (d : SysimgData) (target_idx : Nat) : Option SetupResult :=
  match d.clone_idxs[0]? with
  | none => none
  | some tag0 =>
    if tag0 &&& 2147483648 = 0 then none
    else
      match walk_targets d.fvars_offsets.length target_idx 0 tag0
          (d.clone_idxs.drop 1) d.clone_offsets [some d.fvars_offsets] with
      | none => none
      | some (tag_len, cidxs, coffs, bos) =>
        if tag_len &&& 2147483648 ≠ 0 then
          let offs := if target_idx ≠ 0 then coffs else d.fvars_offsets
          some ⟨tag_len, offs, cidxs, coffs, ⟨offs, 0, [], []⟩⟩
        else
          match cidxs[0]? with
          | none => none
          | some base_idx =>
            if base_idx < target_idx then
              match bos[base_idx]? with
              | some (some boffs) =>
                some ⟨tag_len, boffs, cidxs.drop 1, coffs,
                  ⟨boffs, tag_len, coffs, cidxs.drop 1⟩⟩
              | _ => none
            else none

/-- The inner reloc-slot scan (processor.cpp lines 672-683): walk the sorted
table from the cursor, write the value v into every slot whose function
index equals idx, skip smaller indices, and stop at the first larger one.
Returns the writes, the remaining table suffix, and the found flag. -/
def scan_reloc (idx : Nat) (v : Int) :
    List (Nat × Int) → List (Int × Int) × List (Nat × Int) × Bool
  | [] => ([], [], false)
  | (f, off) :: rel =>
    if f = idx then
      let r := scan_reloc idx v rel
      ((off, v) :: r.1, r.2.1, true)
    else if idx < f then ([], (f, off) :: rel, false)
    else scan_reloc idx v rel

/-- The relocation loop of parse_sysimg (processor.cpp lines 657-686): i is
the clone-entry position, count how many entries remain, rel the unconsumed
suffix of the reloc table.  For clone_all the raw entry indexes res.offsets;
for a sparse target only entries with the 0x80000000 tag are relocated, at
the offset clone_offsets[i].  A missed GOT entry (assert(found)) is none. -/
def reloc_loop (tb : Int) (clone_all : Bool) (resoffs : List Int)
    (cidxs : List Nat) (coffs : List Int) :
    Nat → Nat → List (Nat × Int) → Option (List (Int × Int))
  | _, 0, _ => some []
  | i, count + 1, rel =>
    (cidxs[i]?).bind fun rawidx =>
      if clone_all then
        (resoffs[rawidx]?).bind fun off =>
          if (scan_reloc rawidx (tb + off) rel).2.2 then
            (reloc_loop tb clone_all resoffs cidxs coffs (i + 1) count
                (scan_reloc rawidx (tb + off) rel).2.1).bind fun ws =>
              some ((scan_reloc rawidx (tb + off) rel).1 ++ ws)
          else none
      else if rawidx &&& 2147483648 ≠ 0 then
        (coffs[i]?).bind fun off =>
          if (scan_reloc (rawidx &&& 2147483647) (tb + off) rel).2.2 then
            (reloc_loop tb clone_all resoffs cidxs coffs (i + 1) count
                (scan_reloc (rawidx &&& 2147483647) (tb + off) rel).2.1).bind fun ws =>
              some ((scan_reloc (rawidx &&& 2147483647) (tb + off) rel).1 ++ ws)
          else none
      else
        reloc_loop tb clone_all resoffs cidxs coffs (i + 1) count rel

/-- Source parse_sysimg (processor.cpp lines 595-689) for a given sysimg
blob set and chosen target index; tb is the .text anchor
jl_sysimg_fvars_base as an address.  Returns the fptrs record and the GOT
writes of the relocation pass, each a (data offset from gvars_base, stored
value tb + code offset) pair. -/
def parse_sysimg (tb : Int) (d : SysimgData) (target_idx : Nat) :
    Option (FnPtrs × List (Int × Int)) :=
  (sysimg_setup d target_idx).bind fun st =>
    (reloc_loop tb (st.tag_len &&& 2147483648 ≠ 0) st.res_offsets st.cidxs
        st.coffs 0 (st.tag_len &&& 2147483647) d.reloc_slots).bind fun ws =>
      some (st.fptrs, ws)

/-- What entry j of the relocation loop relocates, if anything: the function
index and the chosen code offset (res.offsets[idx] for clone_all targets,
clone_offsets[j] for tagged sparse entries; none for untagged sparse
entries, which the loop skips). -/
def reloc_entry (clone_all : Bool) (resoffs : List Int) (cidxs : List Nat)
    (coffs : List Int) (j : Nat) : Option (Nat × Int) :=
  (cidxs[j]?).bind fun rawidx =>
    if clone_all then
      (resoffs[rawidx]?).bind fun off => some (rawidx, off)
    else if rawidx &&& 2147483648 ≠ 0 then
      (coffs[j]?).bind fun off => some (rawidx &&& 2147483647, off)
    else none

/-- Final content of a GOT slot after the writes are applied in order. -/
def applyWrites (ws : List (Int × Int)) (off : Int) : Option Int :=
  ws.foldl (fun acc p => if p.1 = off then some p.2 else acc) none

/-- One scan consumes a prefix of the table and its writes' data offsets
form a sublist of that prefix's data offsets. -/
theorem scan_reloc_decomp (idx : Nat) (v : Int) :
    ∀ rel : List (Nat × Int), ∃ (pre : List (Nat × Int)) (l : List (Nat × Int)),
      rel = pre ++ (scan_reloc idx v rel).2.1
      ∧ l.Sublist pre
      ∧ (scan_reloc idx v rel).1.map Prod.fst = l.map Prod.snd := by
  intro rel
  induction rel with
  | nil => exact ⟨[], [], rfl, List.Sublist.refl _, rfl⟩
  | cons p rel ih =>
    obtain ⟨f, off⟩ := p
    by_cases hf : f = idx
    · obtain ⟨pre, l, hpre, hl, hmap⟩ := ih
      refine ⟨(f, off) :: pre, (f, off) :: l, ?_, List.Sublist.cons₂ _ hl, ?_⟩
      · simp only [scan_reloc, if_pos hf, List.cons_append]
        rw [← hpre]
      · simp only [scan_reloc, if_pos hf, List.map_cons]
        rw [hmap]
    · by_cases hlt : idx < f
      · refine ⟨[], [], ?_, List.Sublist.refl _, ?_⟩
        · simp [scan_reloc, hf, hlt]
        · simp [scan_reloc, hf, hlt]
      · obtain ⟨pre, l, hpre, hl, hmap⟩ := ih
        refine ⟨(f, off) :: pre, l, ?_, List.Sublist.cons _ hl, ?_⟩
        · simp only [scan_reloc, if_neg hf, if_neg hlt, List.cons_append]
          rw [← hpre]
        · simp only [scan_reloc, if_neg hf, if_neg hlt]
          exact hmap

/-- A successful scan really saw a slot with the wanted function index. -/
theorem scan_reloc_found (idx : Nat) (v : Int) :
    ∀ rel : List (Nat × Int), (scan_reloc idx v rel).2.2 = true →
      ∃ e, e ∈ rel ∧ e.1 = idx := by
  intro rel
  induction rel with
  | nil => intro h; cases h
  | cons p rel ih =>
    obtain ⟨f, off⟩ := p
    by_cases hf : f = idx
    · intro _
      exact ⟨(f, off), List.mem_cons_self _ _, hf⟩
    · by_cases hlt : idx < f
      · intro h
        simp only [scan_reloc, if_neg hf, if_pos hlt] at h
        cases h
      · intro h
        simp only [scan_reloc, if_neg hf, if_neg hlt] at h
        obtain ⟨e, he, hei⟩ := ih h
        exact ⟨e, List.mem_cons_of_mem _ he, hei⟩

/-- On a strictly sorted table, the scan writes the value into every slot
whose function index matches. -/
theorem scan_reloc_writes (idx : Nat) (v : Int) :
    ∀ rel : List (Nat × Int), rel.Pairwise (fun a b => a.1 < b.1) →
      ∀ e, e ∈ rel → e.1 = idx → (e.2, v) ∈ (scan_reloc idx v rel).1 := by
  intro rel
  induction rel with
  | nil => intro _ e he; cases he
  | cons p rel ih =>
    obtain ⟨f, off⟩ := p
    intro hp e he hei
    obtain ⟨hlt_all, hp2⟩ := List.pairwise_cons.mp hp
    by_cases hf : f = idx
    · simp only [scan_reloc, if_pos hf, List.mem_cons]
      rcases List.mem_cons.mp he with he1 | he2
      · left
        rw [he1]
      · exact absurd hei (by have := hlt_all e he2; omega)
    · rcases List.mem_cons.mp he with he1 | he2
      · exact absurd hei (by rw [he1]; exact hf)
      · by_cases hlt : idx < f
        · exact absurd hei (by have := hlt_all e he2; omega)
        · simp only [scan_reloc, if_neg hf, if_neg hlt]
          exact ih hp2 e he2 hei

/-- The data offsets of all writes of a relocation run form a sublist of
the reloc table's data offsets (each write targets a distinct slot). -/
theorem reloc_loop_keys (tb : Int) (ca : Bool) (ro : List Int) (ci : List Nat)
    (co : List Int) :
    ∀ count i rel ws, reloc_loop tb ca ro ci co i count rel = some ws →
      ∃ l : List (Nat × Int), l.Sublist rel ∧ ws.map Prod.fst = l.map Prod.snd := by
  intro count
  induction count with
  | zero =>
    intro i rel ws h
    unfold reloc_loop at h
    cases h
    exact ⟨[], List.nil_sublist _, rfl⟩
  | succ n ih =>
    intro i rel ws h
    unfold reloc_loop at h
    cases hci : ci[i]? with
    | none => rw [hci, Option.none_bind] at h; cases h
    | some rawidx =>
      rw [hci, Option.some_bind] at h
      cases ca with
      | true =>
        rw [if_pos rfl] at h
        cases hro : ro[rawidx]? with
        | none => rw [hro, Option.none_bind] at h; cases h
        | some off =>
          rw [hro, Option.some_bind] at h
          cases hfd : (scan_reloc rawidx (tb + off) rel).2.2 with
          | false =>
            rw [if_neg (by rw [hfd]; exact Bool.false_ne_true)] at h
            cases h
          | true =>
            rw [if_pos hfd] at h
            cases hrest : reloc_loop tb true ro ci co (i + 1) n
                (scan_reloc rawidx (tb + off) rel).2.1 with
            | none => rw [hrest, Option.none_bind] at h; cases h
            | some ws2 =>
              rw [hrest, Option.some_bind] at h
              simp only [Option.some.injEq] at h
              obtain ⟨pre, l1, hpre, hl1, hm1⟩ := scan_reloc_decomp rawidx (tb + off) rel
              obtain ⟨l2, hl2, hm2⟩ := ih (i + 1) _ ws2 hrest
              refine ⟨l1 ++ l2, ?_, ?_⟩
              · rw [hpre]
                exact List.Sublist.append hl1 hl2
              · rw [← h, List.map_append, List.map_append, hm1, hm2]
      | false =>
        rw [if_neg (Bool.false_ne_true)] at h
        by_cases htag : rawidx &&& 2147483648 ≠ 0
        · rw [if_pos htag] at h
          cases hco : co[i]? with
          | none => rw [hco, Option.none_bind] at h; cases h
          | some off =>
            rw [hco, Option.some_bind] at h
            cases hfd : (scan_reloc (rawidx &&& 2147483647) (tb + off) rel).2.2 with
            | false =>
              rw [if_neg (by rw [hfd]; exact Bool.false_ne_true)] at h
              cases h
            | true =>
              rw [if_pos hfd] at h
              cases hrest : reloc_loop tb false ro ci co (i + 1) n
                  (scan_reloc (rawidx &&& 2147483647) (tb + off) rel).2.1 with
              | none => rw [hrest, Option.none_bind] at h; cases h
              | some ws2 =>
                rw [hrest, Option.some_bind] at h
                simp only [Option.some.injEq] at h
                obtain ⟨pre, l1, hpre, hl1, hm1⟩ :=
                  scan_reloc_decomp (rawidx &&& 2147483647) (tb + off) rel
                obtain ⟨l2, hl2, hm2⟩ := ih (i + 1) _ ws2 hrest
                refine ⟨l1 ++ l2, ?_, ?_⟩
                · rw [hpre]
                  exact List.Sublist.append hl1 hl2
                · rw [← h, List.map_append, List.map_append, hm1, hm2]
        · rw [if_neg htag] at h
          exact ih (i + 1) rel ws h

/-- Every entry the chosen target relocates ends up written: for position j
with function index idx and code offset off, every table slot carrying idx
receives the value tb + off among the writes. -/
theorem reloc_loop_covers (tb : Int) (ca : Bool) (ro : List Int) (ci : List Nat)
    (co : List Int) :
    ∀ count i rel ws, rel.Pairwise (fun a b => a.1 < b.1) →
      reloc_loop tb ca ro ci co i count rel = some ws →
      ∀ j, i ≤ j → j < i + count →
      ∀ idx off, reloc_entry ca ro ci co j = some (idx, off) →
      ∃ e : Nat × Int, e ∈ rel ∧ e.1 = idx ∧ (e.2, tb + off) ∈ ws := by
  intro count
  induction count with
  | zero =>
    intro i rel ws _ _ j hij hj
    omega
  | succ n ih =>
    intro i rel ws hsort h j hij hj idx off hentry
    unfold reloc_loop at h
    cases hci : ci[i]? with
    | none => rw [hci, Option.none_bind] at h; cases h
    | some rawidx =>
      rw [hci, Option.some_bind] at h
      cases ca with
      | true =>
        rw [if_pos rfl] at h
        cases hro : ro[rawidx]? with
        | none => rw [hro, Option.none_bind] at h; cases h
        | some off0 =>
          rw [hro, Option.some_bind] at h
          cases hfd : (scan_reloc rawidx (tb + off0) rel).2.2 with
          | false =>
            rw [if_neg (by rw [hfd]; exact Bool.false_ne_true)] at h
            cases h
          | true =>
            rw [if_pos hfd] at h
            cases hrest : reloc_loop tb true ro ci co (i + 1) n
                (scan_reloc rawidx (tb + off0) rel).2.1 with
            | none => rw [hrest, Option.none_bind] at h; cases h
            | some ws2 =>
              rw [hrest, Option.some_bind] at h
              simp only [Option.some.injEq] at h
              obtain ⟨pre, l1, hpre, _, _⟩ := scan_reloc_decomp rawidx (tb + off0) rel
              by_cases hji : j = i
              · subst hji
                unfold reloc_entry at hentry
                rw [hci, Option.some_bind, if_pos rfl, hro, Option.some_bind] at hentry
                simp only [Option.some.injEq, Prod.mk.injEq] at hentry
                obtain ⟨e, he, hei⟩ := scan_reloc_found rawidx (tb + off0) rel hfd
                refine ⟨e, he, by rw [hei, hentry.1], ?_⟩
                rw [← h, ← hentry.2]
                exact List.mem_append_left _
                  (scan_reloc_writes rawidx (tb + off0) rel hsort e he hei)
              · have hsort2 : (scan_reloc rawidx (tb + off0) rel).2.1.Pairwise
                    (fun a b => a.1 < b.1) :=
                  List.Pairwise.sublist (List.IsSuffix.sublist ⟨pre, hpre.symm⟩) hsort
                obtain ⟨e, he, hei, hw⟩ := ih (i + 1) _ ws2 hsort2 hrest j
                  (by omega) (by omega) idx off hentry
                refine ⟨e, ?_, hei, ?_⟩
                · rw [hpre]
                  exact List.mem_append_right _ he
                · rw [← h]
                  exact List.mem_append_right _ hw
      | false =>
        rw [if_neg (Bool.false_ne_true)] at h
        by_cases htag : rawidx &&& 2147483648 ≠ 0
        · rw [if_pos htag] at h
          cases hco : co[i]? with
          | none => rw [hco, Option.none_bind] at h; cases h
          | some off0 =>
            rw [hco, Option.some_bind] at h
            cases hfd : (scan_reloc (rawidx &&& 2147483647) (tb + off0) rel).2.2 with
            | false =>
              rw [if_neg (by rw [hfd]; exact Bool.false_ne_true)] at h
              cases h
            | true =>
              rw [if_pos hfd] at h
              cases hrest : reloc_loop tb false ro ci co (i + 1) n
                  (scan_reloc (rawidx &&& 2147483647) (tb + off0) rel).2.1 with
              | none => rw [hrest, Option.none_bind] at h; cases h
              | some ws2 =>
                rw [hrest, Option.some_bind] at h
                simp only [Option.some.injEq] at h
                obtain ⟨pre, l1, hpre, _, _⟩ :=
                  scan_reloc_decomp (rawidx &&& 2147483647) (tb + off0) rel
                by_cases hji : j = i
                · subst hji
                  unfold reloc_entry at hentry
                  rw [hci, Option.some_bind, if_neg (Bool.false_ne_true), if_pos htag,
                    hco, Option.some_bind] at hentry
                  simp only [Option.some.injEq, Prod.mk.injEq] at hentry
                  obtain ⟨e, he, hei⟩ :=
                    scan_reloc_found (rawidx &&& 2147483647) (tb + off0) rel hfd
                  refine ⟨e, he, by rw [hei, hentry.1], ?_⟩
                  rw [← h, ← hentry.2]
                  exact List.mem_append_left _
                    (scan_reloc_writes (rawidx &&& 2147483647) (tb + off0) rel hsort e he hei)
                · have hsort2 : (scan_reloc (rawidx &&& 2147483647) (tb + off0) rel).2.1.Pairwise
                      (fun a b => a.1 < b.1) :=
                    List.Pairwise.sublist (List.IsSuffix.sublist ⟨pre, hpre.symm⟩) hsort
                  obtain ⟨e, he, hei, hw⟩ := ih (i + 1) _ ws2 hsort2 hrest j
                    (by omega) (by omega) idx off hentry
                  refine ⟨e, ?_, hei, ?_⟩
                  · rw [hpre]
                    exact List.mem_append_right _ he
                  · rw [← h]
                    exact List.mem_append_right _ hw
        · rw [if_neg htag] at h
          by_cases hji : j = i
          · subst hji
            unfold reloc_entry at hentry
            rw [hci, Option.some_bind, if_neg (Bool.false_ne_true), if_neg htag] at hentry
            cases hentry
          · exact ih (i + 1) rel ws hsort h j (by omega) (by omega) idx off hentry

/-- A strictly sorted table has at most one slot per function index. -/
theorem pairwise_fst_uniq {rel : List (Nat × Int)}
    (hp : rel.Pairwise (fun a b => a.1 < b.1))
    {e e2 : Nat × Int} (he : e ∈ rel) (he2 : e2 ∈ rel) (hf : e.1 = e2.1) : e = e2 := by
  induction rel with
  | nil => cases he
  | cons a rel ih =>
    obtain ⟨ha, hp2⟩ := List.pairwise_cons.mp hp
    rcases List.mem_cons.mp he with h1 | h1
    · rcases List.mem_cons.mp he2 with h2 | h2
      · rw [h1, h2]
      · exact absurd hf (by rw [h1]; have := ha e2 h2; omega)
    · rcases List.mem_cons.mp he2 with h2 | h2
      · exact absurd hf (by rw [h2]; have := ha e h1; omega)
      · exact ih hp2 h1 h2

theorem foldl_write_no_key (k : Int) :
    ∀ (ws : List (Int × Int)) (acc : Option Int), (∀ p ∈ ws, p.1 ≠ k) →
      List.foldl (fun acc p => if p.1 = k then some p.2 else acc) acc ws = acc := by
  intro ws
  induction ws with
  | nil => intro acc _; rfl
  | cons w ws ih =>
    intro acc hk
    rw [List.foldl_cons, if_neg (hk w (List.mem_cons_self w ws))]
    exact ih acc (fun p hp => hk p (List.mem_cons_of_mem w hp))

/-- With pairwise distinct data offsets, a written slot reads back its
value. -/
theorem applyWrites_mem {k v : Int} :
    ∀ ws : List (Int × Int), (ws.map Prod.fst).Nodup → (k, v) ∈ ws →
      applyWrites ws k = some v := by
  have main : ∀ ws : List (Int × Int), (ws.map Prod.fst).Nodup → (k, v) ∈ ws →
      ∀ acc, List.foldl (fun acc p => if p.1 = k then some p.2 else acc) acc ws = some v := by
    intro ws
    induction ws with
    | nil => intro _ hm; cases hm
    | cons w ws ih =>
      intro hnd hm acc
      rw [List.map_cons, List.nodup_cons] at hnd
      rcases List.mem_cons.mp hm with h1 | h1
      · rw [List.foldl_cons, ← h1]
        simp only [if_pos rfl]
        apply foldl_write_no_key
        intro p hp hpk
        rw [← h1] at hnd
        have hmem : p.1 ∈ ws.map Prod.fst := List.mem_map_of_mem Prod.fst hp
        rw [hpk] at hmem
        exact hnd.1 hmem
      · rw [List.foldl_cons]
        exact ih hnd.2 h1 _
  intro ws hnd hm
  exact main ws hnd hm none

/-- C1: after parse_sysimg's relocation pass for the selected target index,
every function index that the chosen target clones — every listed entry when
the target is CLONE_ALL, exactly the entries carrying the 0x80000000 tag
when it is sparse, as packaged by reloc_entry — has its GOT slot (the
reloc-slot table entry with that function index, addressed by its data
offset from gvars_base) holding text_base plus the chosen code offset
(res.offsets[idx] for CLONE_ALL, clone_offsets[i] for sparse).  The
reloc-slot table is sorted strictly by function index, as the format
requires, and its data offsets name distinct GOT slots. -/
theorem C1_reloc_coverage (tb : Int) (d : SysimgData) (target_idx : Nat)
    (st : SetupResult) (res : FnPtrs) (ws : List (Int × Int))
    (hsetup : sysimg_setup d target_idx = some st)
    (hrun : parse_sysimg tb d target_idx = some (res, ws))
    (hsort : d.reloc_slots.Pairwise (fun a b => a.1 < b.1))
    (hnodup : (d.reloc_slots.map Prod.snd).Nodup)
    (j : Nat) (hj : j < st.tag_len &&& 2147483647)
    (idx : Nat) (off : Int)
    (hentry : reloc_entry (st.tag_len &&& 2147483648 ≠ 0) st.res_offsets st.cidxs
        st.coffs j = some (idx, off))
    (e : Nat × Int) (he : e ∈ d.reloc_slots) (hef : e.1 = idx) :
    applyWrites ws e.2 = some (tb + off) := by
  unfold parse_sysimg at hrun
  rw [hsetup, Option.some_bind] at hrun
  cases hloop : reloc_loop tb (st.tag_len &&& 2147483648 ≠ 0) st.res_offsets st.cidxs
      st.coffs 0 (st.tag_len &&& 2147483647) d.reloc_slots with
  | none => rw [hloop, Option.none_bind] at hrun; cases hrun
  | some ws0 =>
    rw [hloop, Option.some_bind] at hrun
    simp only [Option.some.injEq, Prod.mk.injEq] at hrun
    have hws : ws0 = ws := hrun.2
    subst hws
    obtain ⟨e2, he2, he2i, hw⟩ := reloc_loop_covers tb _ _ _ _ _ 0 _ ws0 hsort hloop j
      (Nat.zero_le j) (by omega) idx off hentry
    have hee : e = e2 := pairwise_fst_uniq hsort he he2 (by rw [hef, he2i])
    obtain ⟨l, hl, hm⟩ := reloc_loop_keys tb _ _ _ _ _ 0 d.reloc_slots ws0 hloop
    have hnd : (ws0.map Prod.fst).Nodup := by
      rw [hm]
      exact List.Nodup.sublist (List.Sublist.map Prod.snd hl) hnodup
    rw [hee]
    exact applyWrites_mem ws0 hnd hw

/-- Witness for C1 at a concrete sysimg: two targets, target 0 CLONE_ALL
over two functions, target 1 sparse with one tagged override of function 1
at code offset 77; the GOT slot at data offset 108 ends up holding
text base 1000 plus 77. -/
theorem C1_reloc_coverage_witness :
    applyWrites [((108 : Int), (1077 : Int))] 108 = some (1000 + 77) :=
  C1_reloc_coverage 1000
    ⟨[10, 20], [(0, 100), (1, 108)], [2147483650, 0, 1, 1, 0, 2147483649], [77]⟩ 1
    ⟨1, [10, 20], [2147483649], [77], ⟨[10, 20], 1, [77], [2147483649]⟩⟩
    ⟨[10, 20], 1, [77], [2147483649]⟩ [(108, 1077)]
    (by rfl) (by rfl)
    (by simp [List.pairwise_cons])
    (by decide)
    0 (by decide) 1 77 (by rfl) (1, 108) (by decide) rfl

end Processor
